import Mathlib

/-!
Verification development for the MOOGme equivalent-width pipeline.

The definitions below are shallow embeddings of the Python sources:
  * `interpolation.py` — the atmosphere-grid interpolators,
  * `ewDriver.py` — outlier detection/removal, the refine pass and the batch loop,
  * `runmoog.py` — the engine-report parser and the residual function.
Machine floats are modelled by exact rationals; file contents and report
lines are modelled by explicit data.
-/

namespace MOOGme

/-! ### Engine report parsing (`runmoog.py`: `_read_moog`, `fun_moog`) -/

/-- One line of the MOOG `summary.out` report, as classified by `_read_moog`:
lines beginning `E.P` carry an excitation-potential slope, lines beginning
`R.W` carry a reduced-width slope, lines beginning `average abundance` carry
one per-stage abundance; every other line is ignored. -/
inductive ReportLine where
  | epLine (s : ℚ)
  | rwLine (s : ℚ)
  | abLine (a : ℚ)
  | otherLine
  deriving DecidableEq

/-- `_read_moog` (runmoog.py, lines 31–55): scan the report once, collecting
the EP slopes, the RW slopes and the average abundances in file order. -/
def read_moog : List ReportLine → List ℚ × List ℚ × List ℚ
  | [] => ([], [], [])
  | l :: rest =>
    let r := read_moog rest
    match l with
    | .epLine s => (s :: r.1, r.2.1, r.2.2)
    | .rwLine s => (r.1, s :: r.2.1, r.2.2)
    | .abLine a => (r.1, r.2.1, a :: r.2.2)
    | .otherLine => r

/-- The possible outcomes of a `fun_moog` call: a returned residual, the
implicit `None` Python produces when control falls off the function body,
or the `IndexError` raised by `EPs[0]`/`RWs[0]` when the corresponding
slope list is empty. -/
inductive MoogResult where
  | value (r : ℚ)
  | noReturn
  | indexError
  deriving DecidableEq

/-- `fun_moog` (runmoog.py, lines 58–89).  The atmosphere interpolation,
model serialization and the blocking MOOG call affect only the report file,
which is taken here as the `report` argument; the parameter vector `x` is
consumed by those side effects and does not enter the returned residual.
The body computes a residual only inside the `len(abundances) == 2`
branch; there `EPs[0]` and `RWs[0]` raise `IndexError` when no `E.P` or
`R.W` line was parsed (both branches of the `fix_logg` conditional read
both).  Outside that branch control falls off the end of the function,
which Python turns into `None`.  `np.diff(abundances)` is the difference
of the two abundances. -/
def fun_moog (x : ℚ × ℚ × ℚ × ℚ) (report : List ReportLine)
    (fix_logg : Bool) : MoogResult :=
  let r := read_moog report
  let EPs := r.1
  let RWs := r.2.1
  let abundances := r.2.2
  if abundances.length = 2 then
    match EPs, RWs with
    | e :: _, w :: _ =>
      .value (if fix_logg then
                5 * ((7/2 * e)^2 + (13/10 * w)^2)^2
              else
                5 * ((7/2 * e)^2 + (13/10 * w)^2
                      + (abundances.getD 1 0 - abundances.getD 0 0))^2)
    | _, _ => .indexError
  else
    .noReturn

/-! ### The refine pass thresholds (`ewDriver.py`, lines 575–586) -/

/-- Python `round` to an integer: round half to even (banker's rounding),
here on exact rationals. -/
def roundHalfEven (x : ℚ) : ℤ :=
  if x - ⌊x⌋ < 1/2 then ⌊x⌋
  else if 1/2 < x - ⌊x⌋ then ⌊x⌋ + 1
  else if ⌊x⌋ % 2 = 0 then ⌊x⌋ else ⌊x⌋ + 1

/-- Python `round(x, 4)`: round to four decimal places, half to even. -/
def pyround4 (x : ℚ) : ℚ := (roundHalfEven (x * 10000) : ℚ) / 10000

/-- The threshold update performed by the refine pass (ewDriver.py,
lines 579–581): each criterion becomes `round(old/3, 4)`. -/
def refineThresholds (EPcrit RWcrit ABdiffcrit : ℚ) : ℚ × ℚ × ℚ :=
  (pyround4 (EPcrit / 3), pyround4 (RWcrit / 3), pyround4 (ABdiffcrit / 3))

/-- The guard around the refine pass (ewDriver.py, line 575): the thresholds
are tightened only when the first solve converged and the refine option is
set. -/
def refinePass (converged refineOpt : Bool) (EPcrit RWcrit ABdiffcrit : ℚ) :
    ℚ × ℚ × ℚ :=
  if converged && refineOpt then refineThresholds EPcrit RWcrit ABdiffcrit
  else (EPcrit, RWcrit, ABdiffcrit)

/-! ### The grid interpolators (`interpolation.py`) -/

/-- An atmosphere model as read by `read_model`: a list of layers, each a
list of column values (`numpy` 2-D array of exact rationals). -/
abbrev Model := List (List ℚ)

/-- Cell access `model[layer, column]`; out-of-range reads yield a default,
which the interpolators never rely on (they stay inside the minimum
dimensions, cf. claim C8). -/
def mcell (m : Model) (layer column : ℕ) : ℚ := (m.getD layer []).getD column 0

/-- `model.shape[1]` for a rectangular array: the width of the first row. -/
def rowLen (m : Model) : ℕ := (m.headD []).length

/-- `min([... for model in models])` over the 8 bracketing models. -/
def min8 (f : Fin 8 → ℕ) : ℕ :=
  min (f 0) (min (f 1) (min (f 2) (min (f 3) (min (f 4) (min (f 5) (min (f 6) (f 7)))))))

/-- The flat index into `mnames` of the corner put at `tlayer[i, j, k]`:
`np.unravel_index(cntr, (2, 2, 2))` sends `cntr` to
`(cntr / 4, cntr / 2 % 2, cntr % 2)`, so corner `(i, j, k)` holds model
`4 i + 2 j + k` (interpolation.py, lines 148–152 and 181–183). -/
def cornerIdx (i j k : Fin 2) : Fin 8 :=
  ⟨4 * i.val + 2 * j.val + k.val, by omega⟩

/-- `scipy.ndimage.map_coordinates(tlayer, coord, order=1)` on a 2×2×2
tensor at fractional coordinates `(c1, c2, c3)` inside the unit cube:
first-order (trilinear) interpolation of the 8 corner values. -/
def cellTrilinear (c1 c2 c3 : ℚ) (t : Fin 2 → Fin 2 → Fin 2 → ℚ) : ℚ :=
  (1 - c1) * ((1 - c2) * ((1 - c3) * t 0 0 0 + c3 * t 0 0 1)
              + c2 * ((1 - c3) * t 0 1 0 + c3 * t 0 1 1))
  + c1 * ((1 - c2) * ((1 - c3) * t 1 0 0 + c3 * t 1 0 1)
          + c2 * ((1 - c3) * t 1 1 0 + c3 * t 1 1 1))

/-- `interpolator` (interpolation.py, lines 131–186), the standard 8-model
(2×2×2) mode.  The models are given already read (the `read_model` file
I/O is external); `models i` is the model at flat index `i` of `mnames`.
The fractional coordinates are computed exactly as in lines 164–166, the
output dimensions as in lines 175–176, and every cell is the trilinear
interpolation of the 8 corner values (lines 179–185). -/
def interpolator (models : Fin 8 → Model)
    (teff tefflow teffhigh logg logglow logghigh feh fehlow fehhigh : ℚ) :
    Model :=
  let c1 := (teff - tefflow) / (teffhigh - tefflow)
  let c2 := (logg - logglow) / (logghigh - logglow)
  let c3 := (feh - fehlow) / (fehhigh - fehlow)
  let layers := min8 (fun i => (models i).length)
  let columns := min8 (fun i => rowLen (models i))
  (List.range layers).map fun layer => (List.range columns).map fun column =>
    cellTrilinear c1 c2 c3 (fun i j k => mcell (models (cornerIdx i j k)) layer column)

/-- The value at distance 0 of the least-squares degree-1 polynomial
(`np.polyval(np.polyfit(dist, params, deg=1), 0)`): the constant
coefficient solving the 2×2 normal equations.  For the two-point samples
used by `_interpol` this is the exact interpolating line. -/
def lsqfit1at0 (pts : List (ℚ × ℚ)) : ℚ :=
  let S0 : ℚ := pts.length
  let S1 := (pts.map fun p => p.1).sum
  let S2 := (pts.map fun p => p.1 ^ 2).sum
  let T0 := (pts.map fun p => p.2).sum
  let T1 := (pts.map fun p => p.1 * p.2).sum
  (S2 * T0 - S1 * T1) / (S0 * S2 - S1 * S1)

/-- The value at distance 0 of the least-squares degree-2 polynomial
(`np.polyval(np.polyfit(dist, params, deg=2), 0)`): the constant
coefficient of the 3×3 normal equations, by Cramer's rule.  This agrees
with `np.polyfit` whenever the Vandermonde matrix has full column rank,
which holds for the 4 distinct temperature distances `_interpol` feeds in. -/
def lsqfit2at0 (pts : List (ℚ × ℚ)) : ℚ :=
  let S0 : ℚ := pts.length
  let S1 := (pts.map fun p => p.1).sum
  let S2 := (pts.map fun p => p.1 ^ 2).sum
  let S3 := (pts.map fun p => p.1 ^ 3).sum
  let S4 := (pts.map fun p => p.1 ^ 4).sum
  let T0 := (pts.map fun p => p.2).sum
  let T1 := (pts.map fun p => p.1 * p.2).sum
  let T2 := (pts.map fun p => p.1 ^ 2 * p.2).sum
  (S4 * (S2 * T0 - T1 * S1) - S3 * (S3 * T0 - T1 * S2) + T2 * (S3 * S1 - S2 * S2))
    / (S4 * (S2 * S0 - S1 * S1) - S3 * (S3 * S0 - S1 * S2) + S2 * (S3 * S1 - S2 * S2))

/-- `_interpol` (interpolation.py, lines 238–281): collapse one axis.  Each
entry pairs a grid value on the collapsed axis (the value the source
recovers by parsing the model's dictionary key) with the model; per cell
the signed distances `kv - param` and the cell values are fitted with a
degree-2 polynomial when more than two samples are present and a degree-1
polynomial otherwise, evaluated at distance 0.  The `np.argsort` of the
distances in the source only reorders the samples and least-squares
fitting is invariant under that reordering, so it is not modelled. -/
def _interpol (entries : List (ℚ × Model)) (param : ℚ) (layers columns : ℕ) :
    Model :=
  (List.range layers).map fun layer => (List.range columns).map fun column =>
    let pts := entries.map fun e => (e.1 - param, mcell e.2 layer column)
    if 2 < entries.length then lsqfit2at0 pts else lsqfit1at0 pts

/-- `min` over the 16 models of the extended (4×2×2) mode. -/
def min16 (f : Fin 4 → Fin 2 → Fin 2 → ℕ) : ℕ :=
  min (min (min (f 0 0 0) (f 0 0 1)) (min (f 0 1 0) (f 0 1 1)))
    (min (min (min (f 1 0 0) (f 1 0 1)) (min (f 1 1 0) (f 1 1 1)))
      (min (min (min (f 2 0 0) (f 2 0 1)) (min (f 2 1 0) (f 2 1 1)))
        (min (min (f 3 0 0) (f 3 0 1)) (min (f 3 1 0) (f 3 1 1)))))

/-- `interpolatorN7` (interpolation.py, lines 189–349), the extended mode
with 4 temperature × 2 gravity × 2 metallicity bracketing models.
`m i j k` is the model at `(tv i, gv j, fv k)` (the source recovers these
coordinates by parsing the model file names).  Following lines 301–347:
first the temperature axis is collapsed inside each of the four
(logg, feh) groups (`models_t1` … `models_t4`, degree-2 fits over the four
samples); the four results are then grouped by their metallicity key
(`L1`/`L2`, comparing `key[-3:]`) and the gravity axis is collapsed inside
each group (`l1`, `l2`, degree-1 fits); finally the metallicity axis is
collapsed (`newatm`). -/
def interpolatorN7 (m : Fin 4 → Fin 2 → Fin 2 → Model)
    (tv : Fin 4 → ℚ) (gv : Fin 2 → ℚ) (fv : Fin 2 → ℚ)
    (teff logg feh : ℚ) : Model :=
  let layers := min16 fun i j k => (m i j k).length
  let columns := min16 fun i j k => rowLen (m i j k)
  let t : Fin 2 → Fin 2 → Model := fun j k =>
    _interpol ((List.finRange 4).map fun i => (tv i, m i j k)) teff layers columns
  let l : Fin 2 → Model := fun k =>
    _interpol [(gv 0, t 0 k), (gv 1, t 1 k)] logg layers columns
  _interpol [(fv 0, l 0), (fv 1, l 1)] feh layers columns

/-- Modelled from the spec's wording of claim C2: collapse the axes in the
order temperature (degree-2 fit over the four samples), then metallicity,
then gravity (degree-1 fits over two samples), per cell in the value
versus signed-distance variable, evaluating at distance 0. -/
def interpolatorN7_specOrder (m : Fin 4 → Fin 2 → Fin 2 → Model)
    (tv : Fin 4 → ℚ) (gv : Fin 2 → ℚ) (fv : Fin 2 → ℚ)
    (teff logg feh : ℚ) : Model :=
  let layers := min16 fun i j k => (m i j k).length
  let columns := min16 fun i j k => rowLen (m i j k)
  let t : Fin 2 → Fin 2 → Model := fun j k =>
    _interpol ((List.finRange 4).map fun i => (tv i, m i j k)) teff layers columns
  let f : Fin 2 → Model := fun j =>
    _interpol [(fv 0, t j 0), (fv 1, t j 1)] feh layers columns
  _interpol [(gv 0, f 0), (gv 1, f 1)] logg layers columns

/-! ### Outlier detection (`ewDriver.py`: `hasOutlier`, lines 370–408)

`hasOutlier` reads the per-line iron data produced by the external
`Readmoog.fe_statistics` (utils.py, outside src/): for each ionization
stage a list of lines, each line carrying its wavelength (column 0) and
its derived abundance (column 5+idx).  A stage's data is modelled as a
list of (wavelength, abundance) pairs.  The source flags a line when
`abs(a - mean) >= n * std` with `numpy`'s population standard deviation;
over exact rationals this is embedded by the equivalent (for `n ≥ 0`)
square-free test `n^2 * var ≤ (a - mean)^2`. -/

/-- `np.mean` of a list of rationals (0 for the empty list). -/
def qmean (xs : List ℚ) : ℚ := xs.sum / xs.length

/-- `np.std(xs)^2`: the population variance (0 for the empty list). -/
def qvar (xs : List ℚ) : ℚ :=
  ((xs.map fun x => (x - qmean xs) ^ 2).sum) / xs.length

/-- Python dictionary insertion `d[k] = v` on an association list: an
existing key keeps its position and gets the new value, a new key is
appended. -/
def insertKV : List (ℚ × ℚ) → ℚ → ℚ → List (ℚ × ℚ)
  | [], k, v => [(k, v)]
  | (k0, v0) :: rest, k, v =>
    if k0 = k then (k0, v) :: rest else (k0, v0) :: insertKV rest k v

/-- One stage's flagging loop of `hasOutlier` (lines 395–398 resp.
400–403): for every line whose squared deviation from the stage mean `m`
reaches the squared threshold `s = n²·var`, record `d[deviation] =
wavelength`. -/
def stagePass (m s : ℚ) : List (ℚ × ℚ) → List (ℚ × ℚ) → List (ℚ × ℚ)
  | d, [] => d
  | d, p :: rest =>
    if s ≤ (p.2 - m) ^ 2 then stagePass m s (insertKV d |p.2 - m| p.1) rest
    else stagePass m s d rest

/-- `hasOutlier` (ewDriver.py, lines 370–408): flag stage-1 lines, then
stage-2 lines only when more than 10 of them were measured, and return the
deviation→wavelength dictionary; the empty list models the `False` the
source returns when nothing was flagged. -/
def hasOutlier (fe1 fe2 : List (ℚ × ℚ)) (n : ℚ) : List (ℚ × ℚ) :=
  let m1 := qmean (fe1.map Prod.snd)
  let v1 := qvar (fe1.map Prod.snd)
  let m2 := qmean (fe2.map Prod.snd)
  let v2 := qvar (fe2.map Prod.snd)
  let d1 := stagePass m1 (n ^ 2 * v1) [] fe1
  if 10 < fe2.length then stagePass m2 (n ^ 2 * v2) d1 fe2 else d1

/-- `max(outliers.keys())`. -/
def maxKey : List (ℚ × ℚ) → ℚ
  | [] => 0
  | [p] => p.1
  | p :: q :: rest => max p.1 (maxKey (q :: rest))

/-- Dictionary lookup `outliers[k]` (0 if absent; the source only looks up
present keys). -/
def lookupD (d : List (ℚ × ℚ)) (k : ℚ) : ℚ :=
  match d.find? (fun p => p.1 == k) with
  | some p => p.2
  | none => 0

/-! ### Line-list files (`ewDriver.py`: `removeOutlier`, `_outlierRunner`,
and the teff-range pruning of `ewdriver`)

The files touched by outlier handling are the job's line list, the scratch
copy `linelist/tmplinelist.moog`, and derived lists obtained by the
renaming `name.moog → name_outlier.moog`; the name space is modelled by
`FName` with `outlierOf` as that renaming (always distinct from its
argument).  A line-list file's content is its list of line wavelengths;
the whole store is a map from names to optional contents.  `_update_par`
only edits the engine parameter file `batch.par` and does not touch line
lists, so it is not modelled. -/

inductive FName where
  | orig
  | tmp
  | outlierOf (f : FName)
  deriving DecidableEq

/-- The line-list file store: `none` models an absent file. -/
def FS := FName → Option (List ℚ)

/-- Write (or `copyfile` onto) one file. -/
def fsWrite (fs : FS) (nm : FName) (c : Option (List ℚ)) : FS :=
  fun x => if x = nm then c else fs x

/-- The text test of `removeOutlier` (ewDriver.py, line 430): does a line
whose space-stripped text renders its wavelength `wl` with exactly two
decimals start with `str(round(w, 2))`?  Both values are scaled to
hundredths (`roundHalfEven (· * 100)` is Python's `round(·, 2)` in
hundredths).  Python's `str` drops a trailing zero hundredths digit (while
always keeping at least one decimal digit), so when the rounded target
ends in a zero hundredths digit the target text is one digit shorter and
every line in the following ten-hundredths band extends it (e.g. target
`500.0` also matches `500.05`); otherwise the prefix test is equality of
the two-decimal renderings. -/
def startsWithRounded (wl w : ℚ) : Bool :=
  let t := roundHalfEven (w * 100)
  let v := roundHalfEven (wl * 100)
  if t % 10 = 0 then decide (t ≤ v ∧ v < t + 10) else v == t

/-- `removeOutlier` (ewDriver.py, lines 411–434): rewrite the file in the
same name, dropping every line whose text (spaces removed) starts with
`str(round(wavelength, 2))`. -/
def removeOutlierFS (fs : FS) (nm : FName) (w : ℚ) : FS :=
  fsWrite fs nm ((fs nm).map fun ll => ll.filter fun wl => !(startsWithRounded wl w))

/-- A single-outlier step: remove the line at `outliers[max(outliers.keys())]`. -/
def removeMax (fs : FS) (nm : FName) (o : List (ℚ × ℚ)) : FS :=
  removeOutlierFS fs nm (lookupD o (maxKey o))

/-- An all-outliers step: remove the line of every flagged wavelength
(`for wavelength in outliers.itervalues()`). -/
def removeAll (fs : FS) (nm : FName) (o : List (ℚ × ℚ)) : FS :=
  o.foldl (fun f p => removeOutlierFS f nm p.2) fs

/-- The i-th outlier detection of a run: the engine output after the i-th
re-minimization is external, so the per-stage iron data it yields is an
oracle input; detection applies `hasOutlier` to it. -/
def detectO (oracle : ℕ → List (ℚ × ℚ) × List (ℚ × ℚ)) (n : ℚ) (i : ℕ) :
    List (ℚ × ℚ) :=
  hasOutlier (oracle i).1 (oracle i).2 n

/-- The `while outliers:` loop of the `'1Iter'` policy (lines 309–318),
bounded by fuel: each pass removes the worst line from the scratch copy,
counts one solver restart, and re-detects. -/
def iterLoopOne (oracle : ℕ → List (ℚ × ℚ) × List (ℚ × ℚ)) (n : ℚ) :
    ℕ → ℕ → FS → ℕ → FS × ℕ
  | 0, _, fs, cnt => (fs, cnt)
  | fuel + 1, i, fs, cnt =>
    let o := detectO oracle n i
    if o = [] then (fs, cnt)
    else iterLoopOne oracle n fuel (i + 1) (removeMax fs FName.tmp o) (cnt + 1)

/-- The `while outliers:` loop of the `'allIter'` policy (lines 335–344):
each pass removes every flagged line, counts one solver restart, and
re-detects. -/
def iterLoopAll (oracle : ℕ → List (ℚ × ℚ) × List (ℚ × ℚ)) (n : ℚ) :
    ℕ → ℕ → FS → ℕ → FS × ℕ
  | 0, _, fs, cnt => (fs, cnt)
  | fuel + 1, i, fs, cnt =>
    let o := detectO oracle n i
    if o = [] then (fs, cnt)
    else iterLoopAll oracle n fuel (i + 1) (removeAll fs FName.tmp o) (cnt + 1)

/-- The four removal policies of `_outlierRunner` (`'1Iter'`, `'1Once'`,
`'allIter'`, `'allOnce'`). -/
inductive OutlierPolicy where
  | oneIter
  | oneOnce
  | allIter
  | allOnce
  deriving DecidableEq

/-- `_outlierRunner` (ewDriver.py, lines 272–367) acting on the line-list
files: copy the current list `lname` to the scratch name (line 302),
perform the policy's removals on the scratch copy while counting the
solver restarts (lines 307–357; `newLineList` is exactly `0 < count`),
and finally either persist the scratch copy under the derived
`_outlier.moog` name and delete the scratch file (lines 359–364), or
just delete the scratch file (lines 365–367).  Returns the store, the
name of the list to use from now on, and the restart count. -/
def outlierRunner (policy : OutlierPolicy)
    (oracle : ℕ → List (ℚ × ℚ) × List (ℚ × ℚ)) (n : ℚ) (fuel : ℕ)
    (fs : FS) (lname : FName) : FS × FName × ℕ :=
  let fs1 := fsWrite fs FName.tmp (fs lname)
  let r : FS × ℕ :=
    match policy with
    | .oneOnce =>
      let o := detectO oracle n 0
      if o = [] then (fs1, 0) else (removeMax fs1 FName.tmp o, 1)
    | .allOnce =>
      let o := detectO oracle n 0
      if o = [] then (fs1, 0) else (removeAll fs1 FName.tmp o, 1)
    | .oneIter => iterLoopOne oracle n fuel 0 fs1 0
    | .allIter => iterLoopAll oracle n fuel 0 fs1 0
  if 0 < r.2 then
    (fsWrite (fsWrite r.1 (FName.outlierOf lname) (r.1 FName.tmp)) FName.tmp none,
      FName.outlierOf lname, r.2)
  else
    (fsWrite r.1 FName.tmp none, lname, r.2)

/-- The teff-range pruning (ewDriver.py, lines 541–551): when lines of the
current list appear in `coolNormalDiff.lines` and the converged
temperature is below 5200 K (and not above 7000 K, which only warns),
every such line is removed from the current list file IN PLACE via
`removeOutlier`.  Returns the store and whether pruning fired. -/
def teffrangeStep (coolLines : List ℚ) (fs : FS) (nm : FName) (teff : ℚ) :
    FS × Bool :=
  let ll := (fs nm).getD []
  let normal := ll.filter fun w => coolLines.contains w
  if normal ≠ [] ∧ 7000 < teff then (fs, false)
  else if normal ≠ [] ∧ teff < 5200 then
    (normal.foldl (fun f li => removeOutlierFS f nm li) fs, true)
  else (fs, false)

/-- The line-list handling slice of one `ewdriver` job (ewDriver.py,
lines 537–563): the optional outlier stage, then the optional teff-range
stage; when pruning fired, the solver restarts and the outlier stage runs
again on the pruned list (second oracle). -/
def lineListPhase (policy : Option OutlierPolicy) (teffrangeOpt : Bool)
    (coolLines : List ℚ)
    (oracle oracle2 : ℕ → List (ℚ × ℚ) × List (ℚ × ℚ)) (n : ℚ) (fuel : ℕ)
    (fs : FS) (lname : FName) (teff : ℚ) : FS × FName :=
  let s1 : FS × FName :=
    match policy with
    | some p =>
      let r := outlierRunner p oracle n fuel fs lname
      (r.1, r.2.1)
    | none => (fs, lname)
  if teffrangeOpt then
    let s2 := teffrangeStep coolLines s1.1 s1.2 teff
    if s2.2 then
      match policy with
      | some p =>
        let r := outlierRunner p oracle2 n fuel s2.1 s1.2
        (r.1, r.2.1)
      | none => (s2.1, s1.2)
    else (s2.1, s1.2)
  else s1

/-! ### The batch loop around a failing job (`ewDriver.py`, lines 481–535) -/

/-- One parsed job descriptor together with the external behaviour it
triggers: `solved` is the parameter vector the solver would hand back on
success, and `report` is the engine report produced for this job. -/
structure Job where
  solved : List ℚ
  report : List ReportLine

/-- Modelled from the spec: `Minimize.minimize` (minimization.py, which is
not under src/) raises the missing-ionization error — caught as
`ValueError` in `ewdriver` — exactly when the engine report does not carry
the two per-stage average abundances; the abundance count comes from the
`_read_moog` parse embedded above as `read_moog`. -/
def minimizeModel (j : Job) : Option (List ℚ) :=
  if (read_moog j.report).2.2.length = 2 then some j.solved else none

/-- The per-job slice of the `ewdriver` batch loop (ewDriver.py,
lines 527–535): run the solver once; on the missing-ionization
`ValueError` the job yields no result row and the loop `continue`s.  The
second component counts how many times the solver was started before the
job either failed or went on to the later stages: the failing path runs it
exactly once and is never retried. -/
def processJob (j : Job) : Option (List ℚ) × ℕ :=
  match minimizeModel j with
  | some p => (some p, 1)
  | none => (none, 1)

/-- The batch loop (ewDriver.py, lines 481–535): each job contributes its
result row when it succeeds and nothing when it fails; the loop always
moves on to the next descriptor line. -/
def ewdriverBatch (jobs : List Job) : List (List ℚ) :=
  jobs.filterMap (fun j => (processJob j).1)

/-! ### Concrete instances used to evaluate the theorems -/

/-- Exact linear interpolation through `(d0, y0)` and `(d1, y1)`, read at 0. -/
def lin2 (d0 d1 y0 y1 : ℚ) : ℚ := (d0 * y1 - d1 * y0) / (d0 - d1)

/-- Eight concrete 2×2 grid models with distinguishable corner values. -/
def wModels1 : Fin 8 → Model := fun i => [[(i.val : ℚ), 50], [60, 70]]

/-- Eight concrete models; model 0 has a third layer beyond the common
minimum of two layers. -/
def wModels : Fin 8 → Model := fun i =>
  if i.val = 0 then [[0], [99], [77]] else [[(i.val : ℚ)], [99]]

/-- Same family as `wModels` except in the third layer of model 0, which
lies beyond the minimum layer count. -/
def wModelsAlt : Fin 8 → Model := fun i =>
  if i.val = 0 then [[0], [99], [55]] else [[(i.val : ℚ)], [99]]

/-- Sixteen concrete extended-mode models; the (0,0,0) model has a third
layer beyond the common minimum of two layers. -/
def wM7 : Fin 4 → Fin 2 → Fin 2 → Model := fun i j k =>
  if i.val = 0 ∧ j.val = 0 ∧ k.val = 0 then [[0], [5], [88]]
  else [[(i.val : ℚ) + j.val + k.val], [5]]

/-- Same family as `wM7` except in the third layer of the (0,0,0) model. -/
def wM7Alt : Fin 4 → Fin 2 → Fin 2 → Model := fun i j k =>
  if i.val = 0 ∧ j.val = 0 ∧ k.val = 0 then [[0], [5], [66]]
  else [[(i.val : ℚ) + j.val + k.val], [5]]

/-- Four concrete temperature grid values. -/
def wTv : Fin 4 → ℚ := fun i => 5000 + 250 * (i.val : ℚ)

/-- Two concrete gravity grid values. -/
def wGv : Fin 2 → ℚ := fun j => if j = 0 then 4 else 9/2

/-- Two concrete metallicity grid values. -/
def wFv : Fin 2 → ℚ := fun k => if k = 0 then -1/2 else 0

/-- Stage-1 iron data with two lines (wavelengths 100 and 200) deviating
by exactly the same amount (±10 around the mean 0), both at the 3σ
threshold; sixteen further lines sit on the mean. -/
def fe1Collide : List (ℚ × ℚ) :=
  [(1, 0), (2, 0), (3, 0), (4, 0), (5, 0), (6, 0), (7, 0), (8, 0),
   (9, 0), (10, 0), (11, 0), (12, 0), (13, 0), (14, 0), (15, 0), (16, 0),
   (100, 10), (200, -10)]

/-- The line-list store matching `fe1Collide`: the original list holds the
eighteen wavelengths. -/
def fs9 : FS := fun nm =>
  if nm = FName.orig then
    some [1, 2, 3, 4, 5, 6, 7, 8, 9, 10, 11, 12, 13, 14, 15, 16, 100, 200]
  else none

/-- A store whose original line list holds two lines, one of them listed
in the cool-star pruning file. -/
def wFs5 : FS := fun nm => if nm = FName.orig then some [5000, 6000] else none

/-- A small two-line stage for exercising the detection theorem. -/
def wFe1 : List (ℚ × ℚ) := [(1, 0), (2, 6)]

end MOOGme

namespace MOOGme

/-! ## Supporting lemmas -/

/-- The banker's rounding of `x` differs from `x` by at most a half. -/
theorem roundHalfEven_abs_le (x : ℚ) : |(roundHalfEven x : ℚ) - x| ≤ 1/2 := by
  have h0 : ((⌊x⌋ : ℤ) : ℚ) ≤ x := Int.floor_le x
  have h1 : x < (⌊x⌋ : ℤ) + 1 := Int.lt_floor_add_one x
  unfold roundHalfEven
  by_cases hr : x - ⌊x⌋ < 1/2
  · rw [if_pos hr, abs_le]; constructor <;> push_cast <;> linarith
  · rw [if_neg hr]
    by_cases hr2 : 1/2 < x - ⌊x⌋
    · rw [if_pos hr2, abs_le]; constructor <;> push_cast <;> linarith
    · rw [if_neg hr2]
      by_cases hp : (⌊x⌋ : ℤ) % 2 = 0
      · rw [if_pos hp, abs_le]; constructor <;> push_cast <;> linarith
      · rw [if_neg hp, abs_le]; constructor <;> push_cast <;> linarith

/-- Rounding to four decimal places moves a value by at most `1/20000`. -/
theorem pyround4_abs_le (x : ℚ) : |pyround4 x - x| ≤ 1/20000 := by
  have h := roundHalfEven_abs_le (x * 10000)
  have hx : pyround4 x - x = ((roundHalfEven (x * 10000) : ℚ) - x * 10000) / 10000 := by
    unfold pyround4; ring
  rw [hx, abs_div]
  have h4 : |(10000 : ℚ)| = 10000 := by norm_num
  rw [h4]
  linarith

/-- The population variance is never negative. -/
theorem qvar_nonneg (xs : List ℚ) : 0 ≤ qvar xs := by
  unfold qvar
  apply div_nonneg
  · apply List.sum_nonneg
    intro x hx
    simp only [List.mem_map] at hx
    obtain ⟨y, -, rfl⟩ := hx
    positivity
  · exact_mod_cast Nat.zero_le _

/-- The embedded square test is the source's `|d| ≥ n·σ` test, with
`σ = √v` the population standard deviation, whenever `n ≥ 0`. -/
theorem flag_iff_real (n v d : ℚ) (hn : 0 ≤ n) (hv : 0 ≤ v) :
    n ^ 2 * v ≤ d ^ 2 ↔ (n : ℝ) * Real.sqrt (v : ℝ) ≤ |(d : ℝ)| := by
  have hnn : (0 : ℝ) ≤ (n : ℝ) := by exact_mod_cast hn
  have hvv : (0 : ℝ) ≤ (v : ℝ) := by exact_mod_cast hv
  constructor
  · intro h
    have h' : ((n : ℝ)) ^ 2 * (v : ℝ) ≤ (d : ℝ) ^ 2 := by exact_mod_cast h
    calc (n : ℝ) * Real.sqrt v
        = Real.sqrt ((n : ℝ) ^ 2 * v) := by
          rw [Real.sqrt_mul (by positivity), Real.sqrt_sq hnn]
      _ ≤ Real.sqrt ((d : ℝ) ^ 2) := Real.sqrt_le_sqrt h'
      _ = |(d : ℝ)| := Real.sqrt_sq_eq_abs _
  · intro h
    have h0 : (0 : ℝ) ≤ (n : ℝ) * Real.sqrt v := by positivity
    have h2 : ((n : ℝ) * Real.sqrt v) ^ 2 ≤ |(d : ℝ)| ^ 2 := pow_le_pow_left₀ h0 h 2
    rw [mul_pow, Real.sq_sqrt hvv, sq_abs] at h2
    exact_mod_cast h2

/-- Key membership after a Python-dictionary insertion. -/
theorem keys_insertKV_mem (d : List (ℚ × ℚ)) (k v k' : ℚ) :
    k' ∈ (insertKV d k v).map Prod.fst ↔ k' ∈ d.map Prod.fst ∨ k' = k := by
  induction d with
  | nil => simp [insertKV]
  | cons p rest ih =>
    rcases p with ⟨k0, v0⟩
    by_cases h : k0 = k
    · subst h
      simp [insertKV]
      tauto
    · simp [insertKV, h, ih]
      tauto

/-- Dictionary insertion keeps the keys pairwise distinct. -/
theorem keys_insertKV_nodup (d : List (ℚ × ℚ)) (k v : ℚ)
    (h : (d.map Prod.fst).Nodup) : ((insertKV d k v).map Prod.fst).Nodup := by
  induction d with
  | nil => simp [insertKV]
  | cons p rest ih =>
    rcases p with ⟨k0, v0⟩
    by_cases hk : k0 = k
    · subst hk
      simpa [insertKV] using h
    · simp only [insertKV, if_neg hk, List.map_cons, List.nodup_cons] at h ⊢
      refine ⟨?_, ih h.2⟩
      rw [keys_insertKV_mem]
      rintro (hmem | rfl)
      · exact h.1 hmem
      · exact hk rfl

/-- The flagging loop keeps the dictionary keys pairwise distinct. -/
theorem keys_stagePass_nodup (m s : ℚ) (xs : List (ℚ × ℚ)) :
    ∀ d : List (ℚ × ℚ), (d.map Prod.fst).Nodup →
      ((stagePass m s d xs).map Prod.fst).Nodup := by
  induction xs with
  | nil => intro d h; simpa [stagePass] using h
  | cons p rest ih =>
    intro d h
    by_cases hf : s ≤ (p.2 - m) ^ 2
    · rw [show stagePass m s d (p :: rest)
          = stagePass m s (insertKV d |p.2 - m| p.1) rest from by
        rw [stagePass, if_pos hf]]
      exact ih _ (keys_insertKV_nodup _ _ _ h)
    · rw [show stagePass m s d (p :: rest) = stagePass m s d rest from by
        rw [stagePass, if_neg hf]]
      exact ih _ h

/-- A key appears after the flagging loop exactly when it was already
present or is the absolute deviation of some flagged line. -/
theorem keys_stagePass_mem (m s : ℚ) (xs : List (ℚ × ℚ)) :
    ∀ (d : List (ℚ × ℚ)) (k : ℚ), k ∈ (stagePass m s d xs).map Prod.fst
      ↔ k ∈ d.map Prod.fst ∨ ∃ p ∈ xs, |p.2 - m| = k ∧ s ≤ (p.2 - m) ^ 2 := by
  induction xs with
  | nil => intro d k; simp [stagePass]
  | cons p rest ih =>
    intro d k
    by_cases hf : s ≤ (p.2 - m) ^ 2
    · rw [show stagePass m s d (p :: rest)
          = stagePass m s (insertKV d |p.2 - m| p.1) rest from by
        rw [stagePass, if_pos hf], ih, keys_insertKV_mem]
      constructor
      · rintro ((h | rfl) | ⟨q, hq, h1, h2⟩)
        · exact Or.inl h
        · exact Or.inr ⟨p, List.mem_cons_self _ _, rfl, hf⟩
        · exact Or.inr ⟨q, List.mem_cons_of_mem _ hq, h1, h2⟩
      · rintro (h | ⟨q, hq, h1, h2⟩)
        · exact Or.inl (Or.inl h)
        · rcases List.mem_cons.mp hq with rfl | hq'
          · exact Or.inl (Or.inr h1.symm)
          · exact Or.inr ⟨q, hq', h1, h2⟩
    · rw [show stagePass m s d (p :: rest) = stagePass m s d rest from by
        rw [stagePass, if_neg hf], ih]
      constructor
      · rintro (h | ⟨q, hq, h1, h2⟩)
        · exact Or.inl h
        · exact Or.inr ⟨q, List.mem_cons_of_mem _ hq, h1, h2⟩
      · rintro (h | ⟨q, hq, h1, h2⟩)
        · exact Or.inl h
        · rcases List.mem_cons.mp hq with rfl | hq'
          · exact absurd h2 hf
          · exact Or.inr ⟨q, hq', h1, h2⟩

/-- The flagging loop is the fold of dictionary insertions over the
flagged sublist. -/
theorem stagePass_eq_foldl (m s : ℚ) (xs : List (ℚ × ℚ)) :
    ∀ d : List (ℚ × ℚ), stagePass m s d xs
      = (xs.filter fun p => decide (s ≤ (p.2 - m) ^ 2)).foldl
          (fun acc p => insertKV acc |p.2 - m| p.1) d := by
  induction xs with
  | nil => intro d; simp [stagePass]
  | cons p rest ih =>
    intro d
    by_cases hf : s ≤ (p.2 - m) ^ 2
    · rw [show stagePass m s d (p :: rest)
          = stagePass m s (insertKV d |p.2 - m| p.1) rest from by
        rw [stagePass, if_pos hf],
        List.filter_cons_of_pos (by simpa using hf), List.foldl_cons, ih]
    · rw [show stagePass m s d (p :: rest) = stagePass m s d rest from by
        rw [stagePass, if_neg hf],
        List.filter_cons_of_neg (by simpa using hf), ih]

/-- Writes to one file leave every other file unchanged. -/
theorem fsWrite_other (fs : FS) (nm x : FName) (c : Option (List ℚ))
    (h : x ≠ nm) : fsWrite fs nm c x = fs x := by
  simp [fsWrite, h]

/-- `removeOutlier` only rewrites the file it is given. -/
theorem removeOutlierFS_other (fs : FS) (nm x : FName) (w : ℚ) (h : x ≠ nm) :
    removeOutlierFS fs nm w x = fs x :=
  fsWrite_other _ _ _ _ h

/-- A single-outlier removal only rewrites the scratch file. -/
theorem removeMax_other (fs : FS) (nm x : FName) (o : List (ℚ × ℚ))
    (h : x ≠ nm) : removeMax fs nm o x = fs x :=
  removeOutlierFS_other _ _ _ _ h

/-- An all-outliers removal only rewrites the scratch file. -/
theorem removeAll_other (o : List (ℚ × ℚ)) (fs : FS) (nm x : FName)
    (h : x ≠ nm) : removeAll fs nm o x = fs x := by
  induction o generalizing fs with
  | nil => rfl
  | cons p rest ih =>
    show removeAll (removeOutlierFS fs nm p.2) nm rest x = fs x
    rw [ih]
    exact removeOutlierFS_other _ _ _ _ h

/-- The single-removal iteration only writes the scratch file. -/
theorem iterLoopOne_other (oracle : ℕ → List (ℚ × ℚ) × List (ℚ × ℚ)) (n : ℚ)
    (fuel : ℕ) : ∀ (i : ℕ) (fs : FS) (cnt : ℕ) (x : FName), x ≠ FName.tmp →
      (iterLoopOne oracle n fuel i fs cnt).1 x = fs x := by
  induction fuel with
  | zero => intro i fs cnt x h; rfl
  | succ fuel ih =>
    intro i fs cnt x h
    rw [show iterLoopOne oracle n (fuel + 1) i fs cnt
        = if detectO oracle n i = [] then (fs, cnt)
          else iterLoopOne oracle n fuel (i + 1)
            (removeMax fs FName.tmp (detectO oracle n i)) (cnt + 1) from rfl]
    by_cases ho : detectO oracle n i = []
    · rw [if_pos ho]
    · rw [if_neg ho, ih _ _ _ _ h]
      exact removeMax_other _ _ _ _ h

/-- The all-removal iteration only writes the scratch file. -/
theorem iterLoopAll_other (oracle : ℕ → List (ℚ × ℚ) × List (ℚ × ℚ)) (n : ℚ)
    (fuel : ℕ) : ∀ (i : ℕ) (fs : FS) (cnt : ℕ) (x : FName), x ≠ FName.tmp →
      (iterLoopAll oracle n fuel i fs cnt).1 x = fs x := by
  induction fuel with
  | zero => intro i fs cnt x h; rfl
  | succ fuel ih =>
    intro i fs cnt x h
    rw [show iterLoopAll oracle n (fuel + 1) i fs cnt
        = if detectO oracle n i = [] then (fs, cnt)
          else iterLoopAll oracle n fuel (i + 1)
            (removeAll fs FName.tmp (detectO oracle n i)) (cnt + 1) from rfl]
    by_cases ho : detectO oracle n i = []
    · rw [if_pos ho]
    · rw [if_neg ho, ih _ _ _ _ h]
      exact removeAll_other _ _ _ _ h

/-- The outlier renaming never reproduces its input name. -/
theorem outlierOf_ne (f : FName) : FName.outlierOf f ≠ f := by
  induction f with
  | orig => intro h; exact FName.noConfusion h
  | tmp => intro h; exact FName.noConfusion h
  | outlierOf g ih => intro h; exact ih (by injection h)

/-- `_outlierRunner` computes some scratch state `g` that differs from the
input store only at the scratch file, and then either persists `g`'s
scratch contents under the derived name (when lines were removed) or
returns the input list name. -/
theorem outlierRunner_shape (policy : OutlierPolicy)
    (oracle : ℕ → List (ℚ × ℚ) × List (ℚ × ℚ)) (n : ℚ) (fuel : ℕ)
    (fs : FS) (lname : FName) :
    ∃ (g : FS) (cnt : ℕ),
      (∀ y, y ≠ FName.tmp → g y = fs y)
      ∧ outlierRunner policy oracle n fuel fs lname
        = if 0 < cnt then
            (fsWrite (fsWrite g (FName.outlierOf lname) (g FName.tmp)) FName.tmp none,
              FName.outlierOf lname, cnt)
          else (fsWrite g FName.tmp none, lname, cnt) := by
  cases policy with
  | oneOnce =>
    by_cases ho : detectO oracle n 0 = []
    · refine ⟨fsWrite fs FName.tmp (fs lname), 0,
        fun y hy => fsWrite_other _ _ _ _ hy, ?_⟩
      simp only [outlierRunner]
      rw [if_pos ho]
    · refine ⟨removeMax (fsWrite fs FName.tmp (fs lname)) FName.tmp (detectO oracle n 0),
        1, ?_, ?_⟩
      · intro y hy
        rw [removeMax_other _ _ _ _ hy]
        exact fsWrite_other _ _ _ _ hy
      · simp only [outlierRunner]
        rw [if_neg ho]
  | allOnce =>
    by_cases ho : detectO oracle n 0 = []
    · refine ⟨fsWrite fs FName.tmp (fs lname), 0,
        fun y hy => fsWrite_other _ _ _ _ hy, ?_⟩
      simp only [outlierRunner]
      rw [if_pos ho]
    · refine ⟨removeAll (fsWrite fs FName.tmp (fs lname)) FName.tmp (detectO oracle n 0),
        1, ?_, ?_⟩
      · intro y hy
        rw [removeAll_other _ _ _ _ hy]
        exact fsWrite_other _ _ _ _ hy
      · simp only [outlierRunner]
        rw [if_neg ho]
  | oneIter =>
    refine ⟨(iterLoopOne oracle n fuel 0 (fsWrite fs FName.tmp (fs lname)) 0).1,
      (iterLoopOne oracle n fuel 0 (fsWrite fs FName.tmp (fs lname)) 0).2, ?_, ?_⟩
    · intro y hy
      rw [iterLoopOne_other _ _ _ _ _ _ _ hy]
      exact fsWrite_other _ _ _ _ hy
    · simp only [outlierRunner]
  | allIter =>
    refine ⟨(iterLoopAll oracle n fuel 0 (fsWrite fs FName.tmp (fs lname)) 0).1,
      (iterLoopAll oracle n fuel 0 (fsWrite fs FName.tmp (fs lname)) 0).2, ?_, ?_⟩
    · intro y hy
      rw [iterLoopAll_other _ _ _ _ _ _ _ hy]
      exact fsWrite_other _ _ _ _ hy
    · simp only [outlierRunner]

/-- Reading position `l < n` of `(List.range n).map f` gives `f l`. -/
theorem getD_map_range {α : Type} (f : ℕ → α) {n l : ℕ} (h : l < n) (d : α) :
    ((List.range n).map f).getD l d = f l := by
  rw [List.getD_eq_getElem?_getD]
  simp [List.getElem?_map, List.getElem?_range h]

/-- Congruence for maps over `List.range`. -/
theorem range_map_congr {α : Type} {n : ℕ} {f g : ℕ → α}
    (h : ∀ i < n, f i = g i) :
    (List.range n).map f = (List.range n).map g :=
  List.map_congr_left fun i hi => h i (List.mem_range.mp hi)

/-- Trilinear interpolation at a corner of the unit cube returns that
corner's value. -/
theorem cellTrilinear_corner (b1 b2 b3 : Fin 2) (t : Fin 2 → Fin 2 → Fin 2 → ℚ) :
    cellTrilinear (if b1 = 0 then 0 else 1) (if b2 = 0 then 0 else 1)
      (if b3 = 0 then 0 else 1) t = t b1 b2 b3 := by
  fin_cases b1 <;> fin_cases b2 <;> fin_cases b3 <;> simp [cellTrilinear]

/-- An in-range cell of `_interpol` is the polynomial fit of the signed
distances against the corresponding cells of the entries. -/
theorem mcell_interpol (entries : List (ℚ × Model)) (param : ℚ)
    {layers columns l c : ℕ} (hl : l < layers) (hc : c < columns) :
    mcell (_interpol entries param layers columns) l c
      = (if 2 < entries.length then lsqfit2at0 else lsqfit1at0)
          (entries.map fun e => (e.1 - param, mcell e.2 l c)) := by
  show ((_interpol entries param layers columns).getD l []).getD c 0 = _
  unfold _interpol
  rw [getD_map_range _ hl, getD_map_range _ hc]
  by_cases h : 2 < entries.length <;> simp [h]

/-- `min8` only depends on the values of its argument. -/
theorem min8_congr {f g : Fin 8 → ℕ} (h : ∀ i, f i = g i) : min8 f = min8 g := by
  unfold min8
  rw [h 0, h 1, h 2, h 3, h 4, h 5, h 6, h 7]

/-- `min16` only depends on the values of its argument. -/
theorem min16_congr {f g : Fin 4 → Fin 2 → Fin 2 → ℕ}
    (h : ∀ i j k, f i j k = g i j k) : min16 f = min16 g := by
  unfold min16
  rw [h 0 0 0, h 0 0 1, h 0 1 0, h 0 1 1, h 1 0 0, h 1 0 1, h 1 1 0, h 1 1 1,
    h 2 0 0, h 2 0 1, h 2 1 0, h 2 1 1, h 3 0 0, h 3 0 1, h 3 1 0, h 3 1 1]

/-- `_interpol` outputs agree when the two entry lists have the same length
and induce the same per-cell samples inside the output dimensions. -/
theorem interpol_cells_congr (entries entries' : List (ℚ × Model)) (param : ℚ)
    (L C : ℕ) (hlen : entries.length = entries'.length)
    (h : ∀ l c, l < L → c < C →
      (entries.map fun e => (e.1 - param, mcell e.2 l c))
        = entries'.map fun e => (e.1 - param, mcell e.2 l c)) :
    _interpol entries param L C = _interpol entries' param L C := by
  unfold _interpol
  refine range_map_congr fun l hl => range_map_congr fun c hc => ?_
  rw [h l c hl hc, hlen]

/-- On a two-point sample with distinct abscissae the least-squares line is
the interpolating line, so `lsqfit1at0` reads it at 0. -/
theorem lsqfit1at0_pair (d0 d1 y0 y1 : ℚ) (h : d0 ≠ d1) :
    lsqfit1at0 [(d0, y0), (d1, y1)] = lin2 d0 d1 y0 y1 := by
  have hd : d0 - d1 ≠ 0 := sub_ne_zero.mpr h
  unfold lsqfit1at0 lin2
  simp only [List.map_cons, List.map_nil, List.sum_cons, List.sum_nil,
    List.length_cons, List.length_nil]
  push_cast
  rw [show (2:ℚ) * (d0^2 + (d1^2 + 0)) - (d0 + (d1 + 0)) * (d0 + (d1 + 0))
        = (d0 - d1) * (d0 - d1) from by ring,
    show (d0^2 + (d1^2 + 0)) * (y0 + (y1 + 0)) - (d0 + (d1 + 0)) * (d0*y0 + (d1*y1 + 0))
        = (d0 - d1) * (d0 * y1 - d1 * y0) from by ring,
    mul_div_mul_left _ _ hd]

/-- Two nested two-point linear interpolations commute. -/
theorem lin2_swap (a0 a1 b0 b1 y00 y01 y10 y11 : ℚ)
    (ha : a0 ≠ a1) (hb : b0 ≠ b1) :
    lin2 b0 b1 (lin2 a0 a1 y00 y10) (lin2 a0 a1 y01 y11)
      = lin2 a0 a1 (lin2 b0 b1 y00 y01) (lin2 b0 b1 y10 y11) := by
  have hda : a0 - a1 ≠ 0 := sub_ne_zero.mpr ha
  have hdb : b0 - b1 ≠ 0 := sub_ne_zero.mpr hb
  unfold lin2
  field_simp
  ring

/-! ## Claim theorems -/

/-- Claim C1: in standard 8-model mode, interpolating with each axis target
set to one of its two bracketing grid values (fractional coordinate exactly
0 or 1) reproduces, in every in-range (layer, column) cell, exactly the
value of the grid model sitting at that corner of the bracket cube. -/
theorem claim_C1_grid_point_identity (models : Fin 8 → Model)
    (tefflow teffhigh logglow logghigh fehlow fehhigh : ℚ) (b1 b2 b3 : Fin 2)
    (ht : tefflow ≠ teffhigh) (hg : logglow ≠ logghigh) (hf : fehlow ≠ fehhigh)
    (layer column : ℕ)
    (hl : layer < min8 fun i => (models i).length)
    (hc : column < min8 fun i => rowLen (models i)) :
    mcell (interpolator models
        (if b1 = 0 then tefflow else teffhigh) tefflow teffhigh
        (if b2 = 0 then logglow else logghigh) logglow logghigh
        (if b3 = 0 then fehlow else fehhigh) fehlow fehhigh) layer column
      = mcell (models (cornerIdx b1 b2 b3)) layer column := by
  have hc1 : ((if b1 = 0 then tefflow else teffhigh) - tefflow) / (teffhigh - tefflow)
      = (if b1 = 0 then (0:ℚ) else 1) := by
    by_cases hb : b1 = 0 <;>
      simp [hb, sub_self, zero_div, div_self (sub_ne_zero.mpr (Ne.symm ht))]
  have hc2 : ((if b2 = 0 then logglow else logghigh) - logglow) / (logghigh - logglow)
      = (if b2 = 0 then (0:ℚ) else 1) := by
    by_cases hb : b2 = 0 <;>
      simp [hb, sub_self, zero_div, div_self (sub_ne_zero.mpr (Ne.symm hg))]
  have hc3 : ((if b3 = 0 then fehlow else fehhigh) - fehlow) / (fehhigh - fehlow)
      = (if b3 = 0 then (0:ℚ) else 1) := by
    by_cases hb : b3 = 0 <;>
      simp [hb, sub_self, zero_div, div_self (sub_ne_zero.mpr (Ne.symm hf))]
  show ((interpolator models _ tefflow teffhigh _ logglow logghigh _ fehlow fehhigh).getD
      layer []).getD column 0 = mcell (models (cornerIdx b1 b2 b3)) layer column
  simp only [interpolator]
  rw [getD_map_range _ hl, getD_map_range _ hc, hc1, hc2, hc3, cellTrilinear_corner]

/-- Claim C1 witness: on eight concrete 2×2 models with corner choice
(high, low, high), the interpolated cell (0,0) is exactly the cell of
model `cornerIdx 1 0 1 = 5`. -/
theorem claim_C1_witness :
    ((5000:ℚ) ≠ 5250 ∧ (4:ℚ) ≠ 9/2 ∧ (-1/2 : ℚ) ≠ 0
      ∧ 0 < min8 (fun i => (wModels1 i).length)
      ∧ 0 < min8 (fun i => rowLen (wModels1 i)))
    ∧ mcell (interpolator wModels1 (if (1 : Fin 2) = 0 then 5000 else 5250) 5000 5250
          (if (0 : Fin 2) = 0 then 4 else 9/2) 4 (9/2)
          (if (1 : Fin 2) = 0 then -1/2 else 0) (-1/2) 0) 0 0
        = mcell (wModels1 (cornerIdx 1 0 1)) 0 0 :=
  ⟨⟨by norm_num, by norm_num, by norm_num, by decide, by decide⟩,
    claim_C1_grid_point_identity wModels1 5000 5250 4 (9/2) (-1/2) 0 1 0 1
      (by norm_num) (by norm_num) (by norm_num) 0 0 (by decide) (by decide)⟩

/-- Claim C2: the extended-mode interpolator equals, cell for cell, the
procedure the spec describes — collapse the temperature axis (degree-2 fit
over 4 samples), then the metallicity axis, then the gravity axis
(degree-1 fits over 2 samples), per cell in value versus signed distance,
evaluated at distance 0.  The source text collapses gravity before
metallicity (its two comments are swapped), but both two-point collapses
are exact linear interpolations and commute, so the claimed order computes
the same model. -/
theorem claim_C2_extended_axis_collapse (m : Fin 4 → Fin 2 → Fin 2 → Model)
    (tv : Fin 4 → ℚ) (gv fv : Fin 2 → ℚ) (teff logg feh : ℚ)
    (hg : gv 0 ≠ gv 1) (hf : fv 0 ≠ fv 1) :
    interpolatorN7 m tv gv fv teff logg feh
      = interpolatorN7_specOrder m tv gv fv teff logg feh := by
  have hga : gv 0 - logg ≠ gv 1 - logg := fun hcon => hg (by linarith)
  have hfa : fv 0 - feh ≠ fv 1 - feh := fun hcon => hf (by linarith)
  simp only [interpolatorN7, interpolatorN7_specOrder]
  set L := min16 fun i j k => (m i j k).length with hL
  set C := min16 fun i j k => rowLen (m i j k) with hC
  set t00 := _interpol ((List.finRange 4).map fun i => (tv i, m i 0 0)) teff L C with ht00
  set t01 := _interpol ((List.finRange 4).map fun i => (tv i, m i 0 1)) teff L C with ht01
  set t10 := _interpol ((List.finRange 4).map fun i => (tv i, m i 1 0)) teff L C with ht10
  set t11 := _interpol ((List.finRange 4).map fun i => (tv i, m i 1 1)) teff L C with ht11
  set l0 := _interpol [(gv 0, t00), (gv 1, t10)] logg L C with hl0
  set l1 := _interpol [(gv 0, t01), (gv 1, t11)] logg L C with hl1
  set f0 := _interpol [(fv 0, t00), (fv 1, t01)] feh L C with hf0
  set f1 := _interpol [(fv 0, t10), (fv 1, t11)] feh L C with hf1
  unfold _interpol
  refine range_map_congr fun l hl => range_map_congr fun c hc => ?_
  have h22 : ¬(2 < 0+1+1) := by norm_num
  simp only [List.map_cons, List.map_nil, List.length_cons, List.length_nil]
  rw [if_neg h22, if_neg h22, hl0, hl1, hf0, hf1,
    mcell_interpol _ _ hl hc, mcell_interpol _ _ hl hc,
    mcell_interpol _ _ hl hc, mcell_interpol _ _ hl hc]
  simp only [List.map_cons, List.map_nil, List.length_cons, List.length_nil,
    if_neg h22]
  simp only [lsqfit1at0_pair _ _ _ _ hga, lsqfit1at0_pair _ _ _ _ hfa]
  exact lin2_swap _ _ _ _ _ _ _ _ hga hfa

/-- Claim C2 witness: on sixteen concrete models with distinct gravity and
metallicity brackets, the source's collapse order computes exactly the
model of the spec's collapse order. -/
theorem claim_C2_witness :
    (wGv 0 ≠ wGv 1 ∧ wFv 0 ≠ wFv 1)
    ∧ interpolatorN7 wM7 wTv wGv wFv 5100 (41/10) (1/10)
        = interpolatorN7_specOrder wM7 wTv wGv wFv 5100 (41/10) (1/10) :=
  ⟨⟨by norm_num [wGv], by norm_num [wFv]⟩,
    claim_C2_extended_axis_collapse wM7 wTv wGv wFv 5100 (41/10) (1/10)
      (by norm_num [wGv]) (by norm_num [wFv])⟩

/-- Claim C8: both interpolators produce a model whose layer count is the
minimum layer count of the source models and whose every row has the
minimum column count of the source models, and no output cell reads a
source cell beyond those minimum dimensions: source families agreeing
inside the minimum dimensions (and having the same dimensions) give the
same interpolated model. -/
theorem claim_C8_min_dimensions (models models' : Fin 8 → Model)
    (m7 m7' : Fin 4 → Fin 2 → Fin 2 → Model)
    (teff tefflow teffhigh logg logglow logghigh feh fehlow fehhigh : ℚ)
    (tv : Fin 4 → ℚ) (gv fv : Fin 2 → ℚ)
    (hdim : ∀ i, (models i).length = (models' i).length
        ∧ rowLen (models i) = rowLen (models' i))
    (hcell : ∀ i l c, l < min8 (fun i => (models i).length) →
        c < min8 (fun i => rowLen (models i)) →
        mcell (models i) l c = mcell (models' i) l c)
    (hdim7 : ∀ i j k, (m7 i j k).length = (m7' i j k).length
        ∧ rowLen (m7 i j k) = rowLen (m7' i j k))
    (hcell7 : ∀ i j k l c, l < min16 (fun i j k => (m7 i j k).length) →
        c < min16 (fun i j k => rowLen (m7 i j k)) →
        mcell (m7 i j k) l c = mcell (m7' i j k) l c) :
    (interpolator models teff tefflow teffhigh logg logglow logghigh
        feh fehlow fehhigh).length = min8 (fun i => (models i).length)
    ∧ (∀ row ∈ interpolator models teff tefflow teffhigh logg logglow logghigh
        feh fehlow fehhigh, row.length = min8 (fun i => rowLen (models i)))
    ∧ interpolator models teff tefflow teffhigh logg logglow logghigh feh fehlow fehhigh
      = interpolator models' teff tefflow teffhigh logg logglow logghigh feh fehlow fehhigh
    ∧ (interpolatorN7 m7 tv gv fv teff logg feh).length
      = min16 (fun i j k => (m7 i j k).length)
    ∧ (∀ row ∈ interpolatorN7 m7 tv gv fv teff logg feh,
        row.length = min16 (fun i j k => rowLen (m7 i j k)))
    ∧ interpolatorN7 m7 tv gv fv teff logg feh
      = interpolatorN7 m7' tv gv fv teff logg feh := by
  have hL8 : min8 (fun i => (models' i).length) = min8 (fun i => (models i).length) :=
    min8_congr fun i => ((hdim i).1).symm
  have hC8 : min8 (fun i => rowLen (models' i)) = min8 (fun i => rowLen (models i)) :=
    min8_congr fun i => ((hdim i).2).symm
  have hL16 : min16 (fun i j k => (m7' i j k).length)
      = min16 (fun i j k => (m7 i j k).length) :=
    min16_congr fun i j k => ((hdim7 i j k).1).symm
  have hC16 : min16 (fun i j k => rowLen (m7' i j k))
      = min16 (fun i j k => rowLen (m7 i j k)) :=
    min16_congr fun i j k => ((hdim7 i j k).2).symm
  refine ⟨?_, ?_, ?_, ?_, ?_, ?_⟩
  · simp [interpolator]
  · intro row hrow
    simp only [interpolator, List.mem_map] at hrow
    obtain ⟨layer, -, rfl⟩ := hrow
    simp
  · simp only [interpolator]
    rw [hL8, hC8]
    refine range_map_congr fun layer hlayer => range_map_congr fun column hcolumn => ?_
    have harg : (fun i j k => mcell (models (cornerIdx i j k)) layer column)
        = fun i j k => mcell (models' (cornerIdx i j k)) layer column := by
      funext i j k
      exact hcell (cornerIdx i j k) layer column hlayer hcolumn
    rw [harg]
  · simp [interpolatorN7, _interpol]
  · intro row hrow
    simp only [interpolatorN7, _interpol, List.mem_map] at hrow
    obtain ⟨layer, -, rfl⟩ := hrow
    simp
  · simp only [interpolatorN7]
    rw [hL16, hC16]
    set L := min16 fun i j k => (m7 i j k).length with hL
    set C := min16 fun i j k => rowLen (m7 i j k) with hC
    have hT : ∀ (j k : Fin 2) l c, l < L → c < C →
        mcell (_interpol ((List.finRange 4).map fun i => (tv i, m7 i j k)) teff L C) l c
          = mcell (_interpol ((List.finRange 4).map fun i => (tv i, m7' i j k)) teff L C) l c := by
      intro j k l c hlc hcc
      rw [mcell_interpol _ _ hlc hcc, mcell_interpol _ _ hlc hcc]
      have : ((List.finRange 4).map fun i => (tv i, m7 i j k)).map
            (fun e => (e.1 - teff, mcell e.2 l c))
          = ((List.finRange 4).map fun i => (tv i, m7' i j k)).map
            (fun e => (e.1 - teff, mcell e.2 l c)) := by
        rw [List.map_map, List.map_map]
        refine List.map_congr_left fun i _ => ?_
        simp only [Function.comp]
        rw [hcell7 i j k l c hlc hcc]
      rw [this, List.length_map, List.length_map]
  -- the gravity collapse
    have hG : ∀ (k : Fin 2) l c, l < L → c < C →
        mcell (_interpol [(gv 0, _interpol ((List.finRange 4).map fun i => (tv i, m7 i 0 k)) teff L C),
            (gv 1, _interpol ((List.finRange 4).map fun i => (tv i, m7 i 1 k)) teff L C)] logg L C) l c
          = mcell (_interpol [(gv 0, _interpol ((List.finRange 4).map fun i => (tv i, m7' i 0 k)) teff L C),
            (gv 1, _interpol ((List.finRange 4).map fun i => (tv i, m7' i 1 k)) teff L C)] logg L C) l c := by
      intro k l c hlc hcc
      rw [mcell_interpol _ _ hlc hcc, mcell_interpol _ _ hlc hcc]
      simp only [List.map_cons, List.map_nil, List.length_cons, List.length_nil]
      rw [hT 0 k l c hlc hcc, hT 1 k l c hlc hcc]
    refine interpol_cells_congr _ _ _ _ _ (by simp) fun l c hlc hcc => ?_
    simp only [List.map_cons, List.map_nil]
    rw [hG 0 l c hlc hcc, hG 1 l c hlc hcc]

/-- Claim C8 witness: concrete model families that differ only in a layer
beyond the common minimum produce identical interpolated models, whose
layer count is that minimum. -/
theorem claim_C8_witness :
    (∀ i, (wModels i).length = (wModelsAlt i).length
        ∧ rowLen (wModels i) = rowLen (wModelsAlt i))
    ∧ (interpolator wModels 5100 5000 5250 (41/10) 4 (9/2) (1/10) (-1/2) (1/2)).length
        = min8 (fun i => (wModels i).length)
    ∧ interpolator wModels 5100 5000 5250 (41/10) 4 (9/2) (1/10) (-1/2) (1/2)
        = interpolator wModelsAlt 5100 5000 5250 (41/10) 4 (9/2) (1/10) (-1/2) (1/2)
    ∧ interpolatorN7 wM7 wTv wGv wFv 5100 (41/10) (1/10)
        = interpolatorN7 wM7Alt wTv wGv wFv 5100 (41/10) (1/10) := by
  have h8 : min8 (fun i => (wModels i).length) = 2 := by decide
  have h8c : min8 (fun i => rowLen (wModels i)) = 1 := by decide
  have h16 : min16 (fun i j k => (wM7 i j k).length) = 2 := by decide
  have h16c : min16 (fun i j k => rowLen (wM7 i j k)) = 1 := by decide
  have hdim : ∀ i, (wModels i).length = (wModelsAlt i).length
      ∧ rowLen (wModels i) = rowLen (wModelsAlt i) := by decide
  have hcell : ∀ (i : Fin 8) (l c : ℕ), l < min8 (fun i => (wModels i).length) →
      c < min8 (fun i => rowLen (wModels i)) →
      mcell (wModels i) l c = mcell (wModelsAlt i) l c := by
    intro i l c hl hc
    rw [h8] at hl
    rw [h8c] at hc
    interval_cases l <;> interval_cases c <;> fin_cases i <;> rfl
  have hdim7 : ∀ (i : Fin 4) (j k : Fin 2), (wM7 i j k).length = (wM7Alt i j k).length
      ∧ rowLen (wM7 i j k) = rowLen (wM7Alt i j k) := by decide
  have hcell7 : ∀ (i : Fin 4) (j k : Fin 2) (l c : ℕ),
      l < min16 (fun i j k => (wM7 i j k).length) →
      c < min16 (fun i j k => rowLen (wM7 i j k)) →
      mcell (wM7 i j k) l c = mcell (wM7Alt i j k) l c := by
    intro i j k l c hl hc
    rw [h16] at hl
    rw [h16c] at hc
    interval_cases l <;> interval_cases c <;> fin_cases i <;> fin_cases j <;>
      fin_cases k <;> rfl
  have h := claim_C8_min_dimensions wModels wModelsAlt wM7 wM7Alt
      5100 5000 5250 (41/10) 4 (9/2) (1/10) (-1/2) (1/2) wTv wGv wFv
      hdim hcell hdim7 hcell7
  exact ⟨hdim, h.1, h.2.2.1, h.2.2.2.2.2⟩

/-- Claim C10: the residual function `fun_moog` returns a value only when
the parsed engine report contains exactly two average-abundance entries,
and for every other abundance count (zero, one, or more than two) it falls
off the function body and returns `None` — never the raised
`IndexError`, which can only occur inside the two-abundance branch. -/
theorem claim_C10_fun_moog_value_guard (x : ℚ × ℚ × ℚ × ℚ)
    (report : List ReportLine) (b : Bool) :
    ((∃ r, fun_moog x report b = MoogResult.value r)
        → (read_moog report).2.2.length = 2)
    ∧ ((read_moog report).2.2.length ≠ 2
        → fun_moog x report b = MoogResult.noReturn) := by
  constructor
  · rintro ⟨r, hr⟩
    by_contra h
    rw [show fun_moog x report b = MoogResult.noReturn from by
      unfold fun_moog; rw [if_neg h]] at hr
    exact MoogResult.noConfusion hr
  · intro h
    unfold fun_moog
    rw [if_neg h]

/-- Claim C10 witness: a report with a single abundance line makes
`fun_moog` return `None`, without raising. -/
theorem claim_C10_witness :
    (read_moog [ReportLine.abLine 7]).2.2.length ≠ 2
    ∧ fun_moog (5777, 444/100, 0, 1) [ReportLine.abLine 7] true
        = MoogResult.noReturn :=
  ⟨by norm_num [read_moog],
    (claim_C10_fun_moog_value_guard (5777, 444/100, 0, 1) [ReportLine.abLine 7]
      true).2 (by norm_num [read_moog])⟩

/-- Claim C6: a job whose engine report carries a single average abundance
is marked failed (the solver raises the missing-ionization error), yields
no result row, is not retried, and the batch loop continues with the
remaining job descriptors unchanged. -/
theorem claim_C6_single_abundance_job_skipped (pre post : List Job) (bad : Job)
    (h : (read_moog bad.report).2.2.length = 1) :
    ewdriverBatch (pre ++ bad :: post) = ewdriverBatch pre ++ ewdriverBatch post
    ∧ (processJob bad).1 = none ∧ (processJob bad).2 = 1 := by
  have hm : minimizeModel bad = none := by
    unfold minimizeModel
    rw [if_neg]
    omega
  refine ⟨?_, ?_, ?_⟩
  · unfold ewdriverBatch
    rw [List.filterMap_append, List.filterMap_cons]
    simp [processJob, hm]
  · simp [processJob, hm]
  · simp [processJob, hm]

/-- Claim C6 witness: a concrete batch of three jobs where the middle job's
report holds one abundance: the middle job contributes no row, its solver
runs once, and the two neighbours are processed normally. -/
theorem claim_C6_witness :
    (read_moog (Job.mk [5777] [ReportLine.abLine 7]).report).2.2.length = 1
    ∧ (ewdriverBatch ([Job.mk [5000] [ReportLine.abLine 7, ReportLine.abLine (745/100)]]
          ++ (Job.mk [5777] [ReportLine.abLine 7])
          :: [Job.mk [6000] [ReportLine.abLine 7, ReportLine.abLine (748/100)]])
        = ewdriverBatch [Job.mk [5000] [ReportLine.abLine 7, ReportLine.abLine (745/100)]]
          ++ ewdriverBatch [Job.mk [6000] [ReportLine.abLine 7, ReportLine.abLine (748/100)]]
        ∧ (processJob (Job.mk [5777] [ReportLine.abLine 7])).1 = none
        ∧ (processJob (Job.mk [5777] [ReportLine.abLine 7])).2 = 1) := by
  refine ⟨rfl, claim_C6_single_abundance_job_skipped _ _ _ rfl⟩

/-- Claim C3 counterexample: with the default thresholds, the post-refine
`EPcrit` is `round(0.001/3, 4) = 0.0003`, which is not `0.001/3`. -/
theorem claim_C3_counterexample :
    (refinePass true true (1/1000) (3/1000) (1/100)).1 ≠ (1/1000 : ℚ) / 3 := by
  norm_num [refinePass, refineThresholds, pyround4, roundHalfEven]

/-- Claim C3 (amended): when the refine pass runs, each post-refine
threshold equals the corresponding pre-refine threshold divided by 3 and
then rounded to four decimal places (Python's banker's rounding); in
particular each differs from the exact third by at most `1/20000`. -/
theorem claim_C3_refine_thresholds (c r a : ℚ) :
    refinePass true true c r a = (pyround4 (c/3), pyround4 (r/3), pyround4 (a/3))
    ∧ |(refinePass true true c r a).1 - c/3| ≤ 1/20000
    ∧ |(refinePass true true c r a).2.1 - r/3| ≤ 1/20000
    ∧ |(refinePass true true c r a).2.2 - a/3| ≤ 1/20000 := by
  refine ⟨rfl, ?_, ?_, ?_⟩ <;>
    simpa [refinePass, refineThresholds] using pyround4_abs_le _

/-- Claim C7: a deviation is a key of the outlier report exactly when some
line's absolute deviation from its stage mean equals it and reaches
`n·σ` (population standard deviation), with stage 2 screened only when it
has more than 10 measured lines; and the report is empty exactly when no
line qualifies. -/
theorem claim_C7_outlier_detection (fe1 fe2 : List (ℚ × ℚ)) (n : ℚ)
    (hn : 0 ≤ n) :
    (∀ k : ℚ, k ∈ (hasOutlier fe1 fe2 n).map Prod.fst
      ↔ ((∃ p ∈ fe1, |p.2 - qmean (fe1.map Prod.snd)| = k
            ∧ (n : ℝ) * Real.sqrt (qvar (fe1.map Prod.snd) : ℝ)
                ≤ |((p.2 - qmean (fe1.map Prod.snd) : ℚ) : ℝ)|)
        ∨ (10 < fe2.length ∧ ∃ p ∈ fe2, |p.2 - qmean (fe2.map Prod.snd)| = k
            ∧ (n : ℝ) * Real.sqrt (qvar (fe2.map Prod.snd) : ℝ)
                ≤ |((p.2 - qmean (fe2.map Prod.snd) : ℚ) : ℝ)|)))
    ∧ (hasOutlier fe1 fe2 n = []
      ↔ ((¬ ∃ p ∈ fe1, (n : ℝ) * Real.sqrt (qvar (fe1.map Prod.snd) : ℝ)
              ≤ |((p.2 - qmean (fe1.map Prod.snd) : ℚ) : ℝ)|)
        ∧ (10 < fe2.length → ¬ ∃ p ∈ fe2,
              (n : ℝ) * Real.sqrt (qvar (fe2.map Prod.snd) : ℝ)
                ≤ |((p.2 - qmean (fe2.map Prod.snd) : ℚ) : ℝ)|))) := by
  have hr1 : ∀ p : ℚ × ℚ,
      (n ^ 2 * qvar (fe1.map Prod.snd) ≤ (p.2 - qmean (fe1.map Prod.snd)) ^ 2)
        ↔ (n : ℝ) * Real.sqrt (qvar (fe1.map Prod.snd) : ℝ)
            ≤ |((p.2 - qmean (fe1.map Prod.snd) : ℚ) : ℝ)| :=
    fun p => flag_iff_real n _ _ hn (qvar_nonneg _)
  have hr2 : ∀ p : ℚ × ℚ,
      (n ^ 2 * qvar (fe2.map Prod.snd) ≤ (p.2 - qmean (fe2.map Prod.snd)) ^ 2)
        ↔ (n : ℝ) * Real.sqrt (qvar (fe2.map Prod.snd) : ℝ)
            ≤ |((p.2 - qmean (fe2.map Prod.snd) : ℚ) : ℝ)| :=
    fun p => flag_iff_real n _ _ hn (qvar_nonneg _)
  have hkey : ∀ k : ℚ, k ∈ (hasOutlier fe1 fe2 n).map Prod.fst
      ↔ ((∃ p ∈ fe1, |p.2 - qmean (fe1.map Prod.snd)| = k
            ∧ n ^ 2 * qvar (fe1.map Prod.snd) ≤ (p.2 - qmean (fe1.map Prod.snd)) ^ 2)
        ∨ (10 < fe2.length ∧ ∃ p ∈ fe2, |p.2 - qmean (fe2.map Prod.snd)| = k
            ∧ n ^ 2 * qvar (fe2.map Prod.snd) ≤ (p.2 - qmean (fe2.map Prod.snd)) ^ 2)) := by
    intro k
    simp only [hasOutlier]
    by_cases h10 : 10 < fe2.length
    · rw [if_pos h10, keys_stagePass_mem, keys_stagePass_mem]
      simp only [List.map_nil, List.not_mem_nil, false_or]
      constructor
      · rintro (h | h)
        · exact Or.inl h
        · exact Or.inr ⟨h10, h⟩
      · rintro (h | ⟨-, h⟩)
        · exact Or.inl h
        · exact Or.inr h
    · rw [if_neg h10, keys_stagePass_mem]
      simp only [List.map_nil, List.not_mem_nil, false_or]
      constructor
      · exact fun h => Or.inl h
      · rintro (h | ⟨h10', -⟩)
        · exact h
        · exact absurd h10' h10
  constructor
  · intro k
    rw [hkey k]
    constructor
    · rintro (⟨p, hp, h1, h2⟩ | ⟨h10, p, hp, h1, h2⟩)
      · exact Or.inl ⟨p, hp, h1, (hr1 p).mp h2⟩
      · exact Or.inr ⟨h10, p, hp, h1, (hr2 p).mp h2⟩
    · rintro (⟨p, hp, h1, h2⟩ | ⟨h10, p, hp, h1, h2⟩)
      · exact Or.inl ⟨p, hp, h1, (hr1 p).mpr h2⟩
      · exact Or.inr ⟨h10, p, hp, h1, (hr2 p).mpr h2⟩
  · have hnil : hasOutlier fe1 fe2 n = []
        ↔ ∀ k : ℚ, k ∉ (hasOutlier fe1 fe2 n).map Prod.fst := by
      constructor
      · intro h k
        rw [h]
        simp
      · intro h
        rcases he : hasOutlier fe1 fe2 n with - | ⟨p, rest⟩
        · rfl
        · have := h p.1
          rw [he] at this
          simp at this
    rw [hnil]
    constructor
    · intro h
      refine ⟨?_, ?_⟩
      · rintro ⟨p, hp, hc⟩
        exact h _ ((hkey _).mpr (Or.inl ⟨p, hp, rfl, (hr1 p).mpr hc⟩))
      · intro h10
        rintro ⟨p, hp, hc⟩
        exact h _ ((hkey _).mpr (Or.inr ⟨h10, p, hp, rfl, (hr2 p).mpr hc⟩))
    · rintro ⟨h1, h2⟩ k hk
      rcases (hkey k).mp hk with ⟨p, hp, -, hc⟩ | ⟨h10, p, hp, -, hc⟩
      · exact h1 ⟨p, hp, (hr1 p).mp hc⟩
      · exact h2 h10 ⟨p, hp, (hr2 p).mp hc⟩

/-- Claim C7 witness: the detection characterization at a concrete
two-line stage-1 list with an empty stage 2 and the default `n = 3`. -/
theorem claim_C7_witness :
    (0 : ℚ) ≤ 3
    ∧ ((∀ k : ℚ, k ∈ (hasOutlier wFe1 [] 3).map Prod.fst
      ↔ ((∃ p ∈ wFe1, |p.2 - qmean (wFe1.map Prod.snd)| = k
            ∧ (3 : ℝ) * Real.sqrt (qvar (wFe1.map Prod.snd) : ℝ)
                ≤ |((p.2 - qmean (wFe1.map Prod.snd) : ℚ) : ℝ)|)
        ∨ (10 < ([] : List (ℚ × ℚ)).length
            ∧ ∃ p ∈ ([] : List (ℚ × ℚ)), |p.2 - qmean (([] : List (ℚ × ℚ)).map Prod.snd)| = k
            ∧ (3 : ℝ) * Real.sqrt (qvar (([] : List (ℚ × ℚ)).map Prod.snd) : ℝ)
                ≤ |((p.2 - qmean (([] : List (ℚ × ℚ)).map Prod.snd) : ℚ) : ℝ)|)))
    ∧ (hasOutlier wFe1 [] 3 = []
      ↔ ((¬ ∃ p ∈ wFe1, (3 : ℝ) * Real.sqrt (qvar (wFe1.map Prod.snd) : ℝ)
              ≤ |((p.2 - qmean (wFe1.map Prod.snd) : ℚ) : ℝ)|)
        ∧ (10 < ([] : List (ℚ × ℚ)).length → ¬ ∃ p ∈ ([] : List (ℚ × ℚ)),
              (3 : ℝ) * Real.sqrt (qvar (([] : List (ℚ × ℚ)).map Prod.snd) : ℝ)
                ≤ |((p.2 - qmean (([] : List (ℚ × ℚ)).map Prod.snd) : ℚ) : ℝ)|)))) :=
  ⟨by norm_num, claim_C7_outlier_detection wFe1 [] 3 (by norm_num)⟩

/-- Claim C5 counterexample: with the teff-range option on and no outlier
policy, a converged temperature below 5200 K makes the pruning step edit
the original line-list file in place — at the end of the line-list phase
the original file's contents have changed. -/
theorem claim_C5_counterexample :
    (lineListPhase none true [5000] (fun _ => ([], [])) (fun _ => ([], [])) 3 0
        wFs5 FName.orig 4800).1 FName.orig ≠ wFs5 FName.orig := by
  norm_num [lineListPhase, teffrangeStep, wFs5, removeOutlierFS, fsWrite,
    startsWithRounded, roundHalfEven, List.contains]

/-- Claim C5 (amended): the outlier-removal stage itself never touches any
file other than the scratch copy and the derived `_outlier` name — in
particular the original list is unchanged — and the list used afterwards
is either the unchanged input name or the derived name, which always
differs from the input name.  (The teff-range pruning step, by contrast,
edits the current line-list file in place, cf. the counterexample.) -/
theorem claim_C5_outlier_rename_frame (policy : OutlierPolicy)
    (oracle : ℕ → List (ℚ × ℚ) × List (ℚ × ℚ)) (n : ℚ) (fuel : ℕ)
    (fs : FS) (lname : FName) :
    (∀ x, x ≠ FName.tmp → x ≠ FName.outlierOf lname →
      (outlierRunner policy oracle n fuel fs lname).1 x = fs x)
    ∧ (outlierRunner policy oracle n fuel fs lname).1 FName.orig = fs FName.orig
    ∧ ((outlierRunner policy oracle n fuel fs lname).2.1 = lname
        ∨ (outlierRunner policy oracle n fuel fs lname).2.1 = FName.outlierOf lname)
    ∧ FName.outlierOf lname ≠ lname := by
  obtain ⟨g, cnt, hg, heq⟩ := outlierRunner_shape policy oracle n fuel fs lname
  have hframe : ∀ x, x ≠ FName.tmp → x ≠ FName.outlierOf lname →
      (outlierRunner policy oracle n fuel fs lname).1 x = fs x := by
    intro x hx1 hx2
    rw [heq]
    by_cases h : 0 < cnt
    · rw [if_pos h]
      show fsWrite (fsWrite g (FName.outlierOf lname) (g FName.tmp)) FName.tmp none x
        = fs x
      rw [fsWrite_other _ _ _ _ hx1, fsWrite_other _ _ _ _ hx2, hg x hx1]
    · rw [if_neg h]
      show fsWrite g FName.tmp none x = fs x
      rw [fsWrite_other _ _ _ _ hx1, hg x hx1]
  refine ⟨hframe, hframe FName.orig (by simp) (by simp), ?_, outlierOf_ne lname⟩
  rw [heq]
  by_cases h : 0 < cnt
  · rw [if_pos h]
    right
    rfl
  · rw [if_neg h]
    left
    rfl

/-- Claim C5 witness: the frame property of the outlier runner evaluated
on a concrete store: the original list and an unrelated name are
untouched, and the returned name is the input or its derived rename. -/
theorem claim_C5_witness :
    (outlierRunner OutlierPolicy.oneOnce (fun _ => ([], [])) 3 0 wFs5
        FName.orig).1 (FName.outlierOf FName.tmp)
      = wFs5 (FName.outlierOf FName.tmp)
    ∧ (outlierRunner OutlierPolicy.oneOnce (fun _ => ([], [])) 3 0 wFs5
        FName.orig).1 FName.orig = wFs5 FName.orig
    ∧ ((outlierRunner OutlierPolicy.oneOnce (fun _ => ([], [])) 3 0 wFs5
        FName.orig).2.1 = FName.orig
      ∨ (outlierRunner OutlierPolicy.oneOnce (fun _ => ([], [])) 3 0 wFs5
        FName.orig).2.1 = FName.outlierOf FName.orig)
    ∧ FName.outlierOf FName.orig ≠ FName.orig := by
  have h := claim_C5_outlier_rename_frame OutlierPolicy.oneOnce
    (fun _ => ([], [])) 3 0 wFs5 FName.orig
  exact ⟨h.1 _ (by simp) (by simp), h.2.1, h.2.2.1, h.2.2.2⟩

set_option maxHeartbeats 2000000 in
/-- Claim C9: the outlier report is keyed by deviation, so its keys are
pairwise distinct; on a concrete stage with two different lines deviating
by exactly the same amount (both flagged), the report keeps only the later
wavelength, and an all-once pass removes only that one line while the
other flagged line (wavelength 100) survives in the derived list. -/
theorem claim_C9_deviation_key_collision :
    (∀ (fe1 fe2 : List (ℚ × ℚ)) (n : ℚ),
      ((hasOutlier fe1 fe2 n).map Prod.fst).Nodup)
    ∧ hasOutlier fe1Collide [] 3 = [(10, 200)]
    ∧ (3 : ℚ) ^ 2 * qvar (fe1Collide.map Prod.snd)
        ≤ ((10 : ℚ) - qmean (fe1Collide.map Prod.snd)) ^ 2
    ∧ (outlierRunner OutlierPolicy.allOnce (fun _ => (fe1Collide, [])) 3 0 fs9
        FName.orig).1 (FName.outlierOf FName.orig)
      = some [1, 2, 3, 4, 5, 6, 7, 8, 9, 10, 11, 12, 13, 14, 15, 16, 100] := by
  have hm : qmean (fe1Collide.map Prod.snd) = 0 := by
    norm_num [qmean, fe1Collide]
  have hv : qvar (fe1Collide.map Prod.snd) = 100/9 := by
    norm_num [qvar, qmean, fe1Collide]
  have hout : hasOutlier fe1Collide [] 3 = [(10, 200)] := by
    simp only [hasOutlier, hm, hv, List.length_nil]
    rw [if_neg (by norm_num : ¬((10:ℕ) < 0)), stagePass_eq_foldl]
    norm_num [fe1Collide, insertKV]
  refine ⟨?_, hout, ?_, ?_⟩
  · intro fe1 fe2 n
    simp only [hasOutlier]
    by_cases h10 : 10 < fe2.length
    · rw [if_pos h10]
      exact keys_stagePass_nodup _ _ _ _ (keys_stagePass_nodup _ _ _ _ (by simp))
    · rw [if_neg h10]
      exact keys_stagePass_nodup _ _ _ _ (by simp)
  · rw [hm, hv]
    norm_num
  · have hdet : detectO (fun _ => (fe1Collide, [])) 3 0 = [(10, 200)] := hout
    simp only [outlierRunner, hdet]
    norm_num [removeAll, removeOutlierFS, fsWrite, fs9, startsWithRounded,
      roundHalfEven]
    exact fun h => FName.noConfusion h

end MOOGme
